import Mathlib

/-!
Verification of the core of `blink`, a one-way live mirror of a source
directory tree into a destination tree.  The development embeds the
ignore-pattern matcher (`internal/copier`: `NewIgnorer`, `ShouldIgnore`),
the mirror engine (`InitialSync`, `CleanDestination`, `CopyFile`,
`DeleteFile`), the event handlers of the orchestrator
(`ui.Model.handleEvent` and the plain-text loop of `cmd/blink/main.go`),
and the debounced event aggregator (`watcher.Watch`).

Paths are modelled at the character level: a relative path string is a
`List Char`; a path inside a file tree is a `List Seg` of slash-free
segments.  Byte contents are `List Nat`.
-/

/-! ## Shell glob matching (pattern fragment used by the ignore rules)

The gitignore engine used by the repository is the third-party
go-gitignore library, which is not part of the repository source.  Its
matching behaviour is modelled from the spec (section 4.1: glob rules use
shell-glob semantics; directory rules match the directory and everything
beneath it) and pinned by the repository's own tests
(`copier_test.go`): a slash-free pattern matches any path segment and
thereby the whole subtree below a matched directory.  The modelled glob
fragment covers `*`, `?` and literal characters; `*` and `?` do not match
a path separator.  Bracket character classes do not occur in any pattern
of this repository and are outside the modelled fragment. -/

/-- All suffixes of `s` reachable by letting `*` consume a run of
non-separator characters. -/
def starDrops : List Char → List (List Char)
  | [] => [[]]
  | c :: cs => (c :: cs) :: (if c = '/' then [] else starDrops cs)

/-- Shell-glob matching of a pattern against a string; `*` matches any run
of non-`/` characters, `?` a single non-`/` character. -/
def globMatch : List Char → List Char → Bool
  | [], s => s.isEmpty
  | p :: ps, s =>
      if p = '*' then (starDrops s).any (fun t => globMatch ps t)
      else
        match s with
        | [] => false
        | c :: cs => (if p = '?' then !(c = '/') else p = c) && globMatch ps cs

/-! ## Path segmentation -/

/-- Split a relative-path string at `/` separators (like `strings.Split`). -/
def splitOnSlash : List Char → List (List Char)
  | [] => [[]]
  | c :: cs =>
      let r := splitOnSlash cs
      if c = '/' then [] :: r else (c :: r.headI) :: r.tail

/-- Join path segments with `/` separators. -/
def joinSlash : List (List Char) → List Char
  | [] => []
  | [s] => s
  | s :: rest => s ++ '/' :: joinSlash rest

/-- All nonempty contiguous runs of a segment list.  A gitignore rule
without a leading anchor may match any run of consecutive path segments
delimited by separators. -/
def contigRuns (l : List (List Char)) : List (List (List Char)) :=
  l.tails.flatMap (fun t => t.inits.tail)

/-! ## Ignore rules

`NewIgnorer` (copier.go) collects raw pattern lines and hands them to the
third-party `CompileIgnoreLines`.  Modelled from the spec: a compiled rule
is either a *directory rule* (trailing separator: matches the directory
and everything beneath it, including when the name appears as any path
segment) or a *glob rule*; a path matching any rule is ignored (rules are
a union, section 9).  Blank lines compile to no rule, as in the gitignore
line format (section 6). -/

inductive Rule
  | dir : List Char → Rule
  | glob : List Char → Rule
deriving DecidableEq

/-- Whether a single compiled rule matches a relative-path string.  A
directory rule `g/` matches when `g` matches a run of segments that is
followed by a separator; a glob rule matches when it matches any run of
segments. -/
def Rule.matches : Rule → List Char → Bool
  | .dir g, p => (contigRuns ((splitOnSlash p).dropLast)).any (fun r => globMatch g (joinSlash r))
  | .glob g, p => (contigRuns (splitOnSlash p)).any (fun r => globMatch g (joinSlash r))

/-- Compile one raw pattern line: a trailing separator yields a directory
rule, anything else a glob rule; blank lines yield no rule. -/
def compileRule (pat : List Char) : Option Rule :=
  if pat = [] then none
  else if pat.getLast? = some '/' then some (Rule.dir pat.dropLast)
  else some (Rule.glob pat)

/-- A compiled pattern set (go-gitignore `GitIgnore`). -/
structure GitIgnore where
  rules : List Rule
deriving DecidableEq

/-- Modelled from the spec: go-gitignore `CompileIgnoreLines` compiles each
raw pattern line into one rule of the set. -/
def CompileIgnoreLines (patterns : List (List Char)) : GitIgnore :=
  ⟨patterns.filterMap compileRule⟩

/-- Modelled from the spec: go-gitignore `MatchesPath` reports whether any
rule of the set matches the path (union of rules, no precedence). -/
def GitIgnore.MatchesPath (gi : GitIgnore) (p : List Char) : Bool :=
  gi.rules.any (fun r => r.matches p)

/-- `copier.Ignorer`: wraps the compiled pattern set. -/
structure Ignorer where
  gi : GitIgnore
deriving DecidableEq

/-- `Ignorer.ShouldIgnore` (copier.go): try the path itself, then — when it
does not already end in a separator — retry with a trailing separator so
directory-only patterns match the directory path itself. -/
def Ignorer.ShouldIgnore (ig : Ignorer) (relPath : List Char) : Bool :=
  if ig.gi.MatchesPath relPath then true
  else if !(relPath.getLast? = some '/') then ig.gi.MatchesPath (relPath ++ ['/'])
  else false

/-! ## Building the Ignorer (`NewIgnorer`, `parsePkgMetaIgnore`) -/

/-- Go `strings.TrimSpace` on a character list. -/
def trimSpace (cs : List Char) : List Char :=
  ((cs.dropWhile Char.isWhitespace).reverse.dropWhile Char.isWhitespace).reverse

/-- Go `strings.TrimPrefix`: drop the leading `pre` when present. -/
def trimLead (pre s : List Char) : List Char :=
  if pre.isPrefixOf s then s.drop pre.length else s

/-- The `.gitignore` scanning loop of `NewIgnorer`: keep each line trimmed,
dropping blank lines and `#` comments. -/
def gitignoreScan (lines : List (List Char)) : List (List Char) :=
  (lines.map trimSpace).filter
    (fun line => !(line = []) && !(['#'].isPrefixOf line))

/-- The line loop of `parsePkgMetaIgnore` (copier.go): a line trimming to
`ignore:` starts collecting; while collecting, a recognised list-item line
contributes its trimmed value, and a non-blank non-indented line stops
collecting. -/
def pkgMetaLoop (inIgnore : Bool) : List (List Char) → List (List Char)
  | [] => []
  | line :: rest =>
      let trimmed := trimSpace line
      if trimmed = "ignore:".data then pkgMetaLoop true rest
      else if inIgnore then
        if ("  - ".data).isPrefixOf line
            || ("    - ".data).isPrefixOf line
            || ("\t- ".data).isPrefixOf line then
          let pat := trimSpace (trimLead "- ".data trimmed)
          if pat = [] then pkgMetaLoop true rest else pat :: pkgMetaLoop true rest
        else if !(trimmed = []) && !(" ".data.isPrefixOf line) && !("\t".data.isPrefixOf line) then
          pkgMetaLoop false rest
        else pkgMetaLoop true rest
      else pkgMetaLoop false rest

/-- `parsePkgMetaIgnore` (copier.go) applied to the lines of `.pkgmeta`. -/
def parsePkgMetaIgnore (lines : List (List Char)) : List (List Char) :=
  pkgMetaLoop false lines

/-- `NewIgnorer` (copier.go): the base exclusion list (the tool's own
config file and the version-control metadata directory), then `.gitignore`
lines when enabled, then `.pkgmeta` ignore-block patterns when enabled,
then explicit extra patterns.  The two file sources are passed as their
line lists; an unreadable file corresponds to the empty list. -/
def NewIgnorer (gitignoreLines pkgmetaLines extraPatterns : List (List Char))
    (useGitignore usePkgMeta : Bool) : Ignorer :=
  let patterns := ["blink.toml".data, ".git".data]
  let patterns := patterns ++ (if useGitignore then gitignoreScan gitignoreLines else [])
  let patterns := patterns ++ (if usePkgMeta then parsePkgMetaIgnore pkgmetaLines else [])
  let patterns := patterns ++ extraPatterns
  ⟨CompileIgnoreLines patterns⟩

/-! ## File-tree model

A tree is a flat listing: regular files (path and byte contents) and the
set of (strict sub)directories.  Paths are lists of slash-free segments;
the root itself is not listed.  `joinSlash` recovers the relative-path
string handed to the Ignorer, using the forward-slash separator of the
target platform. -/

abbrev Seg := List Char

abbrev RPath := List Seg

/-- Byte contents of a regular file. -/
abbrev Bytes := List Nat

structure FS where
  files : List (RPath × Bytes)
  dirs : List RPath
deriving DecidableEq

/-- Look up the contents of the regular file at `p`. -/
def lookupPath : List (RPath × Bytes) → RPath → Option Bytes
  | [], _ => none
  | (q, c) :: rest, p => if q = p then some c else lookupPath rest p

/-- Whether a regular file exists at `p`. -/
def fileExists (fs : FS) (p : RPath) : Bool :=
  (lookupPath fs.files p).isSome

/-- Whether a directory exists at `p`. -/
def dirExists (fs : FS) (p : RPath) : Bool :=
  fs.dirs.any (fun d => d = p)

/-- `os.Stat` succeeding at `p`: some entry (file or directory) is there. -/
def statExists (fs : FS) (p : RPath) : Bool :=
  fileExists fs p || dirExists fs p

/-- Write (create or overwrite) the regular file at `p`. -/
def fsWriteFile (fs : FS) (p : RPath) (c : Bytes) : FS :=
  { fs with files := (fs.files.filter (fun g => !(g.1 = p))) ++ [(p, c)] }

/-- Drop the regular file at `p` from the listing. -/
def fsDropFile (fs : FS) (p : RPath) : FS :=
  { fs with files := fs.files.filter (fun g => !(g.1 = p)) }

/-- Drop the directory at `p` from the listing. -/
def fsDropDir (fs : FS) (p : RPath) : FS :=
  { fs with dirs := fs.dirs.filter (fun d => !(d = p)) }

/-- Whether the directory `d` has no immediate children (what
`os.ReadDir` returning an empty listing means). -/
def dirEmptyIn (fs : FS) (d : RPath) : Bool :=
  fs.files.all (fun f => !(f.1.dropLast = d)) && fs.dirs.all (fun c => !(c.dropLast = d))

/-- Failure cases of `os.Remove`. -/
inductive RmErr
  | notExist
  | notEmpty
deriving DecidableEq

/-- `os.Remove`: removes a regular file, or an empty directory; fails when
nothing is there or the directory is not empty. -/
def osRemove (fs : FS) (p : RPath) : Except RmErr FS :=
  if fileExists fs p then .ok (fsDropFile fs p)
  else if dirExists fs p then
    if dirEmptyIn fs p then .ok (fsDropDir fs p) else .error .notEmpty
  else .error .notExist

/-- `copier.DeleteFile`: remove the destination entry, treating an already
absent file (`os.IsNotExist`) as success. -/
def DeleteFile (fs : FS) (p : RPath) : Except RmErr FS :=
  match osRemove fs p with
  | .error .notExist => .ok fs
  | r => r

/-- `copier.CopyFile`: read the whole source file, create missing parent
directories, write the contents to the destination (overwriting).  Fails
when no regular file is at the source path. -/
def CopyFile (src : FS) (srcPath : RPath) (dst : FS) (dstPath : RPath) : Except Unit FS :=
  match lookupPath src.files srcPath with
  | none => .error ()
  | some c =>
      let withDirs := { dst with
        dirs := dst.dirs ++ (dstPath.dropLast.inits.filter
          (fun q => !(q = []) && !(dst.dirs.contains q))) }
      .ok (fsWriteFile withDirs dstPath c)

/-! ## Initial synchronisation

`InitialSync` (copier.go) drives the third-party recursive copy engine
`cp.Copy` with a `Skip` callback.  Modelled from the spec: the engine is
not part of the repository source; per section 4.3 it walks the source
tree depth-first, skips (and does not descend into) entries whose relative
path the callback rejects, copies every remaining regular file to the same
relative path under the destination creating directories as needed, merges
into existing destination directories, and the callback counts the
non-directory entries it accepts. -/

/-- Whether the walk prunes `p`: some nonempty prefix of `p` (an ancestor
directory or `p` itself) is ignored.  The tree root (`rel == "."`) is
never tested. -/
def prunedIgnored (ig : Ignorer) (p : RPath) : Bool :=
  p.inits.any (fun q => !(q.isEmpty) && ig.ShouldIgnore (joinSlash q))

/-- The file-copying fold of the walk: each non-pruned source file is
written to the destination and counted. -/
def syncFiles (ig : Ignorer) : List (RPath × Bytes) → FS → Nat → FS × Nat
  | [], dst, n => (dst, n)
  | (p, c) :: rest, dst, n =>
      if prunedIgnored ig p then syncFiles ig rest dst n
      else syncFiles ig rest (fsWriteFile dst p c) (n + 1)

/-- `copier.InitialSync`: copy all non-ignored files from `src` into
`dst`, merging with existing directories; returns the new destination and
the number of files copied. -/
def InitialSync (src dst : FS) (ig : Ignorer) : FS × Nat :=
  let start : FS :=
    { dst with dirs := dst.dirs ++ src.dirs.filter (fun q => !(prunedIgnored ig q)) }
  syncFiles ig src.files start 0

/-! ## Destination cleanup (`CleanDestination`, copier.go) -/

/-- The removal condition of the first pass: `ig != nil &&
ig.ShouldIgnore(relPath)`, otherwise `os.Stat` under the source failing
with not-exist. -/
def shouldRemoveF (src : FS) (ig : Option Ignorer) (p : RPath) : Bool :=
  (match ig with
   | some i => i.ShouldIgnore (joinSlash p)
   | none => false)
  || !(statExists src p)

/-- First pass of `CleanDestination`: walk the destination files and
remove the stale ones, counting removals. -/
def cleanPass1 (src : FS) (ig : Option Ignorer) :
    List (RPath × Bytes) → FS → Nat → FS × Nat
  | [], fs, n => (fs, n)
  | (p, _) :: rest, fs, n =>
      if shouldRemoveF src ig p then cleanPass1 src ig rest (fsDropFile fs p) (n + 1)
      else cleanPass1 src ig rest fs n

/-- Second pass of `CleanDestination`: visit the collected directories
bottom-up (the collection lists parents before children; the caller
reverses it) and remove each one whose listing is empty. -/
def cleanPass2 : List RPath → FS → FS
  | [], fs => fs
  | d :: rest, fs =>
      if dirExists fs d && dirEmptyIn fs d then cleanPass2 rest (fsDropDir fs d)
      else cleanPass2 rest fs

/-- `copier.CleanDestination`: remove destination files that match the
ignore rules or have no entry under the source, then remove directories
left empty, bottom-up.  Returns the count of removed files. -/
def CleanDestination (src dst : FS) (ig : Option Ignorer) : FS × Nat :=
  let r1 := cleanPass1 src ig dst.files dst 0
  (cleanPass2 r1.1.dirs.reverse r1.1, r1.2)

/-! ## Watcher events and the orchestrator's per-event handlers -/

/-- `watcher.Op`: the classified filesystem operation. -/
inductive Op
  | create
  | write
  | remove
  | rename
deriving DecidableEq

/-- Outcome of applying one event, as reported by the handlers
(`FileChangedMsg.action`, or the printed line of the plain loop). -/
inductive FileAction
  | copied
  | removed
  | errored
deriving DecidableEq

/-- `ui.Model.handleEvent` (ui.go): Remove deletes the destination file;
Rename copies when the path still exists under the source (`os.Stat`
succeeding) and deletes otherwise; Create and Write copy. -/
def handleEvent (src dst : FS) (rel : RPath) (op : Op) : FS × FileAction :=
  match op with
  | .remove =>
      match DeleteFile dst rel with
      | .ok d => (d, .removed)
      | .error _ => (dst, .errored)
  | .rename =>
      if statExists src rel then
        match CopyFile src rel dst rel with
        | .ok d => (d, .copied)
        | .error _ => (dst, .errored)
      else
        match DeleteFile dst rel with
        | .ok d => (d, .removed)
        | .error _ => (dst, .errored)
  | _ =>
      match CopyFile src rel dst rel with
      | .ok d => (d, .copied)
      | .error _ => (dst, .errored)

/-- The per-event body of the plain-text (non-TTY) loop of `run`
(cmd/blink/main.go): Remove and Rename both delete the destination file;
everything else copies. -/
def runPlainEvent (src dst : FS) (rel : RPath) (op : Op) : FS × FileAction :=
  match op with
  | .remove | .rename =>
      match DeleteFile dst rel with
      | .ok d => (d, .removed)
      | .error _ => (dst, .errored)
  | _ =>
      match CopyFile src rel dst rel with
      | .ok d => (d, .copied)
      | .error _ => (dst, .errored)

/-! ## The debounced event aggregator (`watcher.Watch`)

The control loop is embedded from the debounced revision of `Watch`
(src/unnamed/part_000): raw notifications are resolved, filtered through
the Ignorer, classified, recorded in the pending batch keyed by relative
path (later events overwrite earlier ones), and a single debounce timer is
armed; timer expiry flushes the batch.  The error-channel branch of the
`Watch` revision that `cmd/blink/main.go` builds against (the five-argument
one whose events carry an `Err` field) is not under the repository source;
it is modelled from the spec: a notification-source runtime error is
surfaced immediately as an error-bearing event without touching the
pending batch or closing the output queue, and closure of either
underlying channel terminates the loop. -/

/-- An emitted change event: a per-path change, or an error-bearing event
carrying no path and no operation. -/
inductive ChangeEvent
  | change (relPath : List Char) (op : Op)
  | failure
deriving DecidableEq

/-- A raw OS notification as the loop sees it: the resolution of
`filepath.Rel` (`none` when it fails), and the four flag tests of the
classification switch. -/
structure RawNote where
  rel : Option (List Char)
  hasCreate : Bool
  hasWrite : Bool
  hasRemove : Bool
  hasRename : Bool
deriving DecidableEq

/-- The classification switch of the loop: Create, then Write, then
Remove, then Rename; anything else is discarded. -/
def classify (n : RawNote) : Option Op :=
  if n.hasCreate then some .create
  else if n.hasWrite then some .write
  else if n.hasRemove then some .remove
  else if n.hasRename then some .rename
  else none

/-- Aggregator loop state: the pending batch (association list keyed by
relative path) and whether the debounce timer is armed. -/
structure WState where
  pending : List (List Char × ChangeEvent)
  timerArmed : Bool
deriving DecidableEq

/-- Record an event in the pending batch, overwriting any pending event
for the same path (Go map assignment). -/
def setPending : List (List Char × ChangeEvent) → List Char → ChangeEvent →
    List (List Char × ChangeEvent)
  | [], k, v => [(k, v)]
  | (k', v') :: rest, k, v =>
      if k' = k then (k, v) :: rest else (k', v') :: setPending rest k v

/-- Handle one raw notification: discard on failed resolution, the tree
root, an ignored path, or an unclassifiable notification; otherwise buffer
the classified event and arm the debounce timer. -/
def handleNote (ig : Ignorer) (st : WState) (n : RawNote) : WState :=
  match n.rel with
  | none => st
  | some rel =>
      if rel = ".".data then st
      else if ig.ShouldIgnore rel then st
      else
        match classify n with
        | none => st
        | some op =>
            { pending := setPending st.pending rel (.change rel op), timerArmed := true }

/-- One multiplexed input of the control loop. -/
inductive WIn
  | note (n : RawNote)
  | timer
  | errNote (closed : Bool)
  | evClosed
  | cancel
deriving DecidableEq

/-- One step of the loop: the new state, the events emitted onto the
output queue by this step, and whether the loop keeps running. -/
def stepW (ig : Ignorer) (st : WState) (i : WIn) : WState × List ChangeEvent × Bool :=
  match i with
  | .note n => (handleNote ig st n, [], true)
  | .timer =>
      if st.timerArmed then (⟨[], false⟩, st.pending.map (fun kv => kv.2), true)
      else (st, [], true)
  | .errNote closed =>
      if closed then (st, [], false) else (st, [ChangeEvent.failure], true)
  | .evClosed => (st, [], false)
  | .cancel => (st, [], false)

/-- Run the loop on a list of inputs, collecting the emitted events; the
Bool records whether the loop is still running (the output queue is still
open) afterwards. -/
def runW (ig : Ignorer) (st : WState) : List WIn → List ChangeEvent × Bool
  | [] => ([], true)
  | i :: is =>
      let r := stepW ig st i
      if r.2.2 then
        let r2 := runW ig r.1 is
        (r.2.1 ++ r2.1, r2.2)
      else (r.2.1, false)

/-! ## Lemmas about the file-listing primitives -/

theorem lookupPath_filter_self (l : List (RPath × Bytes)) (p : RPath) :
    lookupPath (l.filter (fun g => !(g.1 = p))) p = none := by
  induction l with
  | nil => rfl
  | cons g rest ih =>
      by_cases h : g.1 = p
      · simpa [List.filter_cons, h] using ih
      · simpa [List.filter_cons, h, lookupPath] using ih

theorem lookupPath_filter_ne (l : List (RPath × Bytes)) (p q : RPath) (h : ¬ q = p) :
    lookupPath (l.filter (fun g => !(g.1 = q))) p = lookupPath l p := by
  induction l with
  | nil => rfl
  | cons g rest ih =>
      by_cases hg : g.1 = q
      · have hgp : ¬ g.1 = p := fun hp => h (hg ▸ hp ▸ rfl)
        simp [List.filter_cons, hg, lookupPath, hgp, ih, h]
      · by_cases hp : g.1 = p
        · have hpq : ¬ p = q := fun e => hg (by rw [hp, e])
          simp [List.filter_cons, hg, lookupPath, hp, hpq]
        · simp [List.filter_cons, hg, lookupPath, hp, ih]

theorem lookupPath_append_some (l₁ l₂ : List (RPath × Bytes)) (p : RPath) (d : Bytes)
    (h : lookupPath l₁ p = some d) :
    lookupPath (l₁ ++ l₂) p = some d := by
  induction l₁ with
  | nil => simp [lookupPath] at h
  | cons g rest ih =>
      by_cases hg : g.1 = p
      · simp only [lookupPath, hg, if_pos] at h
        simp [lookupPath, hg, h]
      · simp only [lookupPath, hg, if_neg] at h
        simpa [lookupPath, hg] using ih h

theorem lookupPath_none_iff (l : List (RPath × Bytes)) (p : RPath) :
    lookupPath l p = none ↔ ∀ g ∈ l, ¬ g.1 = p := by
  induction l with
  | nil => simp [lookupPath]
  | cons g rest ih =>
      by_cases h : g.1 = p
      · simp [lookupPath, h]
      · simp [lookupPath, h, ih]

theorem lookupPath_append_none (l₁ l₂ : List (RPath × Bytes)) (p : RPath)
    (h : lookupPath l₁ p = none) :
    lookupPath (l₁ ++ l₂) p = lookupPath l₂ p := by
  induction l₁ with
  | nil => rfl
  | cons g rest ih =>
      by_cases hg : g.1 = p
      · simp [lookupPath, hg] at h
      · simp only [lookupPath, hg] at h
        simpa [lookupPath, hg] using ih h

theorem lookupPath_fsWriteFile_self (fs : FS) (p : RPath) (c : Bytes) :
    lookupPath (fsWriteFile fs p c).files p = some c := by
  show lookupPath (fs.files.filter (fun g => !(g.1 = p)) ++ [(p, c)]) p = some c
  rw [lookupPath_append_none _ _ _ (lookupPath_filter_self fs.files p)]
  simp [lookupPath]

theorem lookupPath_fsWriteFile_ne (fs : FS) (p q : RPath) (c : Bytes) (h : ¬ q = p) :
    lookupPath (fsWriteFile fs q c).files p = lookupPath fs.files p := by
  show lookupPath (fs.files.filter (fun g => !(g.1 = q)) ++ [(q, c)]) p = _
  cases hl : lookupPath (fs.files.filter (fun g => !(g.1 = q))) p with
  | none =>
      rw [lookupPath_append_none _ _ _ hl]
      rw [lookupPath_filter_ne _ _ _ h] at hl
      simp [lookupPath, h, hl]
  | some d =>
      rw [lookupPath_append_some _ _ _ _ hl, ← lookupPath_filter_ne fs.files p q h, hl]

theorem fileExists_fsDropFile_self (fs : FS) (p : RPath) :
    fileExists (fsDropFile fs p) p = false := by
  simp [fileExists, fsDropFile, lookupPath_filter_self]

/-- `DeleteFile` succeeds whenever no directory sits at the path, and the
result is the tree without the file. -/
theorem deleteFile_ok (fs : FS) (p : RPath) (h : dirExists fs p = false) :
    DeleteFile fs p = .ok (fsDropFile fs p) := by
  unfold DeleteFile osRemove
  cases hf : fileExists fs p with
  | true => simp
  | false =>
      have hdrop : fsDropFile fs p = fs := by
        have : fs.files.filter (fun g => !(g.1 = p)) = fs.files := by
          rw [List.filter_eq_self]
          intro g hg
          simp only [Bool.not_eq_true', decide_eq_false_iff_not]
          exact (lookupPath_none_iff fs.files p).mp
            (by simpa [fileExists] using hf) g hg
        simp [fsDropFile, this]
      simp [h, hdrop]

/-! ## Lemmas about the cleanup passes -/

theorem cleanPass1_files (src : FS) (ig : Option Ignorer) :
    ∀ (L : List (RPath × Bytes)) (fs : FS) (n : Nat),
    (cleanPass1 src ig L fs n).1.files
      = fs.files.filter
          (fun g => !(shouldRemoveF src ig g.1 && L.any (fun f => f.1 = g.1)))
  | [], fs, n => by simp [cleanPass1]
  | (p, c) :: rest, fs, n => by
      cases hb : shouldRemoveF src ig p with
      | true =>
          rw [cleanPass1, if_pos hb, cleanPass1_files src ig rest (fsDropFile fs p) (n + 1)]
          show (fs.files.filter _).filter _ = _
          rw [List.filter_filter]
          apply List.filter_congr
          intro g _
          by_cases hgp : p = g.1
          · simp [← hgp, hb]
          · have hgp2 : ¬ g.1 = p := fun h => hgp h.symm
            simp [hgp, hgp2]
      | false =>
          rw [cleanPass1, if_neg (by simp [hb]), cleanPass1_files src ig rest fs n]
          apply List.filter_congr
          intro g _
          by_cases hgp : p = g.1
          · simp [← hgp, hb]
          · simp [hgp]

theorem cleanPass1_count (src : FS) (ig : Option Ignorer) :
    ∀ (L : List (RPath × Bytes)) (fs : FS) (n : Nat),
    (cleanPass1 src ig L fs n).2
      = n + (L.filter (fun f => shouldRemoveF src ig f.1)).length
  | [], fs, n => by simp [cleanPass1]
  | (p, c) :: rest, fs, n => by
      cases hb : shouldRemoveF src ig p with
      | true =>
          rw [cleanPass1, if_pos hb, cleanPass1_count src ig rest (fsDropFile fs p) (n + 1),
            List.filter_cons, if_pos (by simp [hb])]
          simp only [List.length_cons]
          omega
      | false =>
          rw [cleanPass1, if_neg (by simp [hb]), cleanPass1_count src ig rest fs n,
            List.filter_cons, if_neg (by simp [hb])]

theorem cleanPass1_dirs (src : FS) (ig : Option Ignorer) :
    ∀ (L : List (RPath × Bytes)) (fs : FS) (n : Nat),
    (cleanPass1 src ig L fs n).1.dirs = fs.dirs
  | [], _, _ => rfl
  | (p, c) :: rest, fs, n => by
      cases hb : shouldRemoveF src ig p with
      | true =>
          rw [cleanPass1, if_pos hb]
          exact cleanPass1_dirs src ig rest (fsDropFile fs p) (n + 1)
      | false =>
          rw [cleanPass1, if_neg (by simp [hb])]
          exact cleanPass1_dirs src ig rest fs n

theorem cleanPass2_files : ∀ (ds : List RPath) (fs : FS), (cleanPass2 ds fs).files = fs.files
  | [], _ => rfl
  | d :: rest, fs => by
      rw [cleanPass2]
      by_cases h : dirExists fs d && dirEmptyIn fs d
      · rw [if_pos h]
        exact cleanPass2_files rest (fsDropDir fs d)
      · rw [if_neg h]
        exact cleanPass2_files rest fs

/-- Characterisation of `CleanDestination` on files, shared by several
results: every destination file whose path satisfies the removal condition
is removed, every other file is kept unchanged, and the returned count is
the number of removed files. -/
theorem cleanDestination_files_eq (src dst : FS) (ig : Option Ignorer) :
    (CleanDestination src dst ig).1.files
        = dst.files.filter (fun f => !(shouldRemoveF src ig f.1))
      ∧ (CleanDestination src dst ig).2
        = (dst.files.filter (fun f => shouldRemoveF src ig f.1)).length := by
  unfold CleanDestination
  constructor
  · rw [cleanPass2_files, cleanPass1_files src ig dst.files dst 0]
    apply List.filter_congr
    intro g hg
    have hmem : dst.files.any (fun f => f.1 = g.1) = true := by
      simp only [List.any_eq_true]
      exact ⟨g, hg, by simp⟩
    simp [hmem]
  · rw [cleanPass1_count src ig dst.files dst 0]
    omega

/-! ## Sample trees used by concrete evaluations -/

/-- Source tree holding only `main.lua`. -/
def sampleSrc : FS := ⟨[(["main.lua".data], [1])], []⟩

/-- Destination tree holding `main.lua` (also in the source) and a stale
`old.lua`. -/
def sampleDst : FS := ⟨[(["main.lua".data], [1]), (["old.lua".data], [2])], []⟩

/-- A source tree with a *directory* named `old.lua` and no files. -/
def srcDirClash : FS := ⟨[], [["old.lua".data]]⟩

/-- A destination tree with a regular *file* named `old.lua`. -/
def dstDirClash : FS := ⟨[(["old.lua".data], [9])], []⟩

/-- C9: for any path with no directory at it, `DeleteFile` succeeds — with
the file removed when it was present and unchanged when it was already
absent — and applying it a second time succeeds again on the same tree
(idempotence). -/
theorem deleteFile_absent_ok_idempotent (fs : FS) (p : RPath)
    (h : dirExists fs p = false) :
    ∃ fs', DeleteFile fs p = .ok fs'
      ∧ fileExists fs' p = false
      ∧ DeleteFile fs' p = .ok fs'
      ∧ (fileExists fs p = false → fs' = fs) := by
  refine ⟨fsDropFile fs p, deleteFile_ok fs p h, fileExists_fsDropFile_self fs p, ?_, ?_⟩
  · have hdir : dirExists (fsDropFile fs p) p = false := h
    rw [deleteFile_ok _ _ hdir]
    have : fsDropFile (fsDropFile fs p) p = fsDropFile fs p := by
      show ({ fsDropFile fs p with
        files := (fsDropFile fs p).files.filter (fun g => !(g.1 = p)) } : FS) = _
      have : (fsDropFile fs p).files.filter (fun g => !(g.1 = p))
          = (fsDropFile fs p).files := by
        rw [List.filter_eq_self]
        intro g hg
        simp only [Bool.not_eq_true', decide_eq_false_iff_not]
        exact (lookupPath_none_iff _ p).mp
          (by simpa [fileExists] using fileExists_fsDropFile_self fs p) g hg
      rw [this]
    rw [this]
  · intro habs
    show ({ fs with files := fs.files.filter (fun g => !(g.1 = p)) } : FS) = fs
    have : fs.files.filter (fun g => !(g.1 = p)) = fs.files := by
      rw [List.filter_eq_self]
      intro g hg
      simp only [Bool.not_eq_true', decide_eq_false_iff_not]
      exact (lookupPath_none_iff _ p).mp (by simpa [fileExists] using habs) g hg
    rw [this]

/-- Witness for C9 at a concrete tree: `old.lua` is a file of
`sampleDst`, no directory sits at that path, and deletion is idempotent. -/
theorem deleteFile_absent_ok_idempotent_witness :
    dirExists sampleDst ["old.lua".data] = false
      ∧ ∃ fs', DeleteFile sampleDst ["old.lua".data] = .ok fs'
          ∧ fileExists fs' ["old.lua".data] = false
          ∧ DeleteFile fs' ["old.lua".data] = .ok fs'
          ∧ (fileExists sampleDst ["old.lua".data] = false → fs' = sampleDst) :=
  ⟨by decide, deleteFile_absent_ok_idempotent sampleDst ["old.lua".data] (by decide)⟩

/-- C2 (amended): `CleanDestination` removes exactly those destination
files that match the ignore rules or have no corresponding *entry* (file
or directory, what `os.Stat` sees) under the source, leaves every other
destination file untouched, and returns the number of removed files. -/
theorem cleanDestination_spec (src dst : FS) (ig : Option Ignorer) :
    (CleanDestination src dst ig).1.files
        = dst.files.filter (fun f => !(shouldRemoveF src ig f.1))
      ∧ (CleanDestination src dst ig).2
        = (dst.files.filter (fun f => shouldRemoveF src ig f.1)).length :=
  cleanDestination_files_eq src dst ig

/-- C2 counterexample: the destination file `old.lua` has no corresponding
*file* under the source — only a directory of the same name — yet
`CleanDestination` removes nothing (count 0) and leaves the file in
place, while the claim as stated requires its removal. -/
theorem cleanDestination_keeps_file_shadowed_by_source_dir :
    lookupPath srcDirClash.files ["old.lua".data] = none
      ∧ (CleanDestination srcDirClash dstDirClash none).2 = 0
      ∧ (CleanDestination srcDirClash dstDirClash none).1.files = dstDirClash.files := by
  decide

/-- C10: `CleanDestination` with a nil `Ignorer` behaves exactly as with a
compiled set holding no rules ("ignore nothing"), and removes exactly the
destination files with no corresponding entry under the source. -/
theorem cleanDestination_nil_ignorer (src dst : FS) :
    (CleanDestination src dst none).1.files
        = dst.files.filter (fun f => statExists src f.1)
      ∧ (CleanDestination src dst none).2
        = (dst.files.filter (fun f => !(statExists src f.1))).length
      ∧ CleanDestination src dst none = CleanDestination src dst (some ⟨⟨[]⟩⟩) := by
  have hsr : ∀ p : RPath, shouldRemoveF src none p = !(statExists src p) := by
    intro p
    simp [shouldRemoveF]
  have hsr2 : ∀ p : RPath, shouldRemoveF src (some ⟨⟨[]⟩⟩) p = shouldRemoveF src none p := by
    intro p
    have hsi : (Ignorer.ShouldIgnore ⟨⟨[]⟩⟩ (joinSlash p)) = false := by
      simp [Ignorer.ShouldIgnore, GitIgnore.MatchesPath]
    simp [shouldRemoveF, hsi]
  obtain ⟨h1, h2⟩ := cleanDestination_files_eq src dst none
  obtain ⟨h1', h2'⟩ := cleanDestination_files_eq src dst (some ⟨⟨[]⟩⟩)
  refine ⟨?_, ?_, ?_⟩
  · rw [h1]
    apply List.filter_congr
    intro g _
    simp [hsr]
  · exact h2
  · have hpass1 : ∀ (L : List (RPath × Bytes)) (fs : FS) (n : Nat),
        cleanPass1 src none L fs n = cleanPass1 src (some ⟨⟨[]⟩⟩) L fs n := by
      intro L
      induction L with
      | nil => intro fs n; rfl
      | cons f rest ih =>
          intro fs n
          obtain ⟨p, c⟩ := f
          rw [cleanPass1, cleanPass1, hsr2 p]
          by_cases hb : shouldRemoveF src none p = true
          · rw [if_pos hb, ih, if_pos hb]
          · rw [if_neg hb, ih, if_neg hb]
    unfold CleanDestination
    rw [hpass1]

/-- C5: a notification-source runtime error (the error stream stays open)
is emitted as an error-bearing `ChangeEvent` at once — ahead of everything
the loop later produces, without touching the pending batch, running on
with unchanged state and without closing the output queue. -/
theorem watcher_error_immediate (ig : Ignorer) (st : WState) (rest : List WIn) :
    runW ig st (WIn.errNote false :: rest)
      = (ChangeEvent.failure :: (runW ig st rest).1, (runW ig st rest).2) := by
  simp [runW, stepW]

/-! ## Debounce coalescing -/

/-- The event left in the pending batch for path `r` after folding a burst
of notifications over an initial pending event `e`: the last classifiable
notification wins. -/
def lastBuffered (r : List Char) (ns : List RawNote) (e : ChangeEvent) : ChangeEvent :=
  ns.foldl
    (fun acc n =>
      match classify n with
      | some op => ChangeEvent.change r op
      | none => acc) e

theorem handleNote_valid (ig : Ignorer) (st : WState) (r : List Char) (n : RawNote)
    (op : Op) (hrel : n.rel = some r) (hr : ¬ r = ".".data)
    (hig : ig.ShouldIgnore r = false) (hcl : classify n = some op) :
    handleNote ig st n = ⟨setPending st.pending r (.change r op), true⟩ := by
  simp [handleNote, hrel, hr, hig, hcl]

theorem runW_burst (ig : Ignorer) (r : List Char)
    (hr : ¬ r = ".".data) (hig : ig.ShouldIgnore r = false) :
    ∀ (ns : List RawNote) (e : ChangeEvent),
    (∀ n ∈ ns, n.rel = some r ∧ (classify n).isSome) →
    runW ig ⟨[(r, e)], true⟩ (ns.map WIn.note ++ [WIn.timer])
      = ([lastBuffered r ns e], true)
  | [], e, _ => by simp [runW, stepW, lastBuffered]
  | n :: ns', e, hall => by
      obtain ⟨hrel, hcls⟩ := hall n (List.mem_cons_self n ns')
      obtain ⟨op, hop⟩ := Option.isSome_iff_exists.mp hcls
      have hstep : handleNote ig ⟨[(r, e)], true⟩ n
          = ⟨[(r, ChangeEvent.change r op)], true⟩ := by
        rw [handleNote_valid ig _ r n op hrel hr hig hop]
        simp [setPending]
      have hlast : lastBuffered r (n :: ns') e
          = lastBuffered r ns' (ChangeEvent.change r op) := by
        simp [lastBuffered, hop]
      simp only [List.map_cons, List.cons_append, runW, stepW, hstep, hlast]
      simpa using runW_burst ig r hr hig ns' (ChangeEvent.change r op)
        (fun m hm => hall m (List.mem_cons_of_mem n hm))

theorem lastBuffered_valid (r : List Char) :
    ∀ (ns : List RawNote) (hne : ns ≠ []) (e : ChangeEvent),
    (∀ n ∈ ns, (classify n).isSome) →
    ∃ op, classify (ns.getLast hne) = some op
      ∧ lastBuffered r ns e = ChangeEvent.change r op
  | [], hne, _, _ => absurd rfl hne
  | [n], _, e, hall => by
      obtain ⟨op, hop⟩ := Option.isSome_iff_exists.mp (hall n (List.mem_cons_self n []))
      exact ⟨op, by simpa using hop, by simp [lastBuffered, hop]⟩
  | n :: m :: rest, _, e, hall => by
      obtain ⟨op0, hop0⟩ := Option.isSome_iff_exists.mp (hall n (List.mem_cons_self n _))
      obtain ⟨op, hop, hlast⟩ := lastBuffered_valid r (m :: rest) (List.cons_ne_nil m rest)
        (ChangeEvent.change r op0)
        (fun x hx => hall x (List.mem_cons_of_mem n hx))
      refine ⟨op, ?_, ?_⟩
      · rwa [List.getLast_cons (List.cons_ne_nil m rest)]
      · rw [← hlast]
        simp [lastBuffered, hop0]

/-- C3: a burst of `N ≥ 1` raw notifications for the same relative path —
each resolving to that path, none ignored, each classifiable — followed by
the expiry of the debounce timer makes the aggregator emit exactly one
`ChangeEvent` for that path, carrying the classification of the last
notification of the burst; the pending batch holds at most one event per
path, later notifications overwriting earlier ones. -/
theorem watch_debounce_coalesce (ig : Ignorer) (r : List Char) (ns : List RawNote)
    (hne : ns ≠ [])
    (hall : ∀ n ∈ ns, n.rel = some r ∧ (classify n).isSome)
    (hr : ¬ r = ".".data) (hig : ig.ShouldIgnore r = false) :
    ∃ op, classify (ns.getLast hne) = some op ∧
      runW ig ⟨[], false⟩ (ns.map WIn.note ++ [WIn.timer])
        = ([ChangeEvent.change r op], true) := by
  cases ns with
  | nil => exact absurd rfl hne
  | cons n0 ns' =>
      obtain ⟨hrel, hcls⟩ := hall n0 (List.mem_cons_self n0 ns')
      obtain ⟨op0, hop0⟩ := Option.isSome_iff_exists.mp hcls
      have hstep : handleNote ig ⟨[], false⟩ n0
          = ⟨[(r, ChangeEvent.change r op0)], true⟩ := by
        rw [handleNote_valid ig _ r n0 op0 hrel hr hig hop0]
        simp [setPending]
      have hrun : runW ig ⟨[], false⟩ ((n0 :: ns').map WIn.note ++ [WIn.timer])
          = ([lastBuffered r ns' (ChangeEvent.change r op0)], true) := by
        simp only [List.map_cons, List.cons_append, runW, stepW, hstep]
        simpa using runW_burst ig r hr hig ns' (ChangeEvent.change r op0)
          (fun m hm => hall m (List.mem_cons_of_mem n0 hm))
      cases ns' with
      | nil =>
          refine ⟨op0, by simpa using hop0, ?_⟩
          rw [hrun]
          simp [lastBuffered]
      | cons m rest =>
          obtain ⟨op, hop, hlast⟩ := lastBuffered_valid r (m :: rest)
            (List.cons_ne_nil m rest) (ChangeEvent.change r op0)
            (fun x hx => (hall x (List.mem_cons_of_mem n0 hx)).2)
          refine ⟨op, ?_, ?_⟩
          · rwa [List.getLast_cons (List.cons_ne_nil m rest)]
          · rw [hrun, hlast]

/-- A Create notification for `a.lua`. -/
def noteCreate : RawNote := ⟨some "a.lua".data, true, false, false, false⟩

/-- A Write notification for `a.lua`. -/
def noteWrite : RawNote := ⟨some "a.lua".data, false, true, false, false⟩

/-- Witness for C3: a Create then a Write for `a.lua` within one window
yield exactly one event, a Write. -/
theorem watch_debounce_coalesce_witness :
    (([noteCreate, noteWrite] : List RawNote) ≠ []
        ∧ (∀ n ∈ [noteCreate, noteWrite], n.rel = some "a.lua".data ∧ (classify n).isSome)
        ∧ ¬ "a.lua".data = ".".data
        ∧ (NewIgnorer [] [] [] false false).ShouldIgnore "a.lua".data = false)
      ∧ ∃ op, classify (([noteCreate, noteWrite] : List RawNote).getLast (by decide)) = some op
          ∧ runW (NewIgnorer [] [] [] false false) ⟨[], false⟩
              ([noteCreate, noteWrite].map WIn.note ++ [WIn.timer])
              = ([ChangeEvent.change "a.lua".data op], true) :=
  ⟨⟨by decide, by decide, by decide, by decide⟩,
    watch_debounce_coalesce (NewIgnorer [] [] [] false false) "a.lua".data
      [noteCreate, noteWrite] (by decide) (by decide) (by decide) (by decide)⟩

/-! ## Rename handling by the orchestrator -/

/-- C4 (amended): the TUI event handler (`ui.Model.handleEvent`)
disambiguates a Rename by source-side existence — when a source file still
sits at the path it is copied (action `copied`), when nothing is there the
destination file is deleted (action `removed`) — while the plain-text
non-TTY loop of `run` treats every Rename as a removal. -/
theorem rename_event_dispatch (src dst : FS) (rel : RPath) (c : Bytes) :
    (lookupPath src.files rel = some c →
      ∃ d, handleEvent src dst rel .rename = (d, .copied)
        ∧ lookupPath d.files rel = some c)
    ∧ (statExists src rel = false → dirExists dst rel = false →
        handleEvent src dst rel .rename = (fsDropFile dst rel, .removed))
    ∧ (dirExists dst rel = false →
        runPlainEvent src dst rel .rename = (fsDropFile dst rel, .removed)) := by
  refine ⟨?_, ?_, ?_⟩
  · intro hc
    have hstat : statExists src rel = true := by
      simp [statExists, fileExists, hc]
    have h1 : handleEvent src dst rel .rename
        = (fsWriteFile { dst with dirs := dst.dirs ++ (rel.dropLast.inits.filter
            (fun q => !(q = []) && !(dst.dirs.contains q))) } rel c, .copied) := by
      simp [handleEvent, hstat, CopyFile, hc]
    exact ⟨_, h1, lookupPath_fsWriteFile_self _ rel c⟩
  · intro hstat hdir
    have h1 : handleEvent src dst rel .rename
        = (match DeleteFile dst rel with
           | .ok d => (d, FileAction.removed)
           | .error _ => (dst, FileAction.errored)) := by
      simp [handleEvent, hstat]
    rw [h1, deleteFile_ok dst rel hdir]
  · intro hdir
    have h1 : runPlainEvent src dst rel .rename
        = (match DeleteFile dst rel with
           | .ok d => (d, FileAction.removed)
           | .error _ => (dst, FileAction.errored)) := by
      simp [runPlainEvent]
    rw [h1, deleteFile_ok dst rel hdir]

/-- C4 counterexample: `main.lua` still exists under the source, yet the
plain-text orchestrator loop applies a Rename for it as a removal — the
claim requires action `copied` for every Rename whose path still exists
under the source. -/
theorem rename_event_plain_removes_existing :
    statExists sampleSrc ["main.lua".data] = true
      ∧ (runPlainEvent sampleSrc sampleDst ["main.lua".data] .rename).2
          = FileAction.removed
      ∧ fileExists (runPlainEvent sampleSrc sampleDst ["main.lua".data] .rename).1
          ["main.lua".data] = false := by
  decide

/-- Witness for C4 at concrete trees: a Rename for the existing
`main.lua` is copied by the TUI handler. -/
theorem rename_event_dispatch_witness :
    lookupPath sampleSrc.files ["main.lua".data] = some [1]
      ∧ ∃ d, handleEvent sampleSrc sampleDst ["main.lua".data] .rename = (d, .copied)
          ∧ lookupPath d.files ["main.lua".data] = some [1] :=
  ⟨by decide,
    (rename_event_dispatch sampleSrc sampleDst ["main.lua".data] [1]).1 (by decide)⟩

/-! ## Lemmas about path segmentation and runs -/

theorem splitOnSlash_ne_nil (cs : List Char) : splitOnSlash cs ≠ [] := by
  cases cs with
  | nil => simp [splitOnSlash]
  | cons c cs' =>
      simp only [splitOnSlash]
      split <;> simp

theorem splitOnSlash_noslash (s : List Char) (h : '/' ∉ s) : splitOnSlash s = [s] := by
  induction s with
  | nil => rfl
  | cons c cs ih =>
      have hc : ¬ c = '/' := fun e => h (e ▸ List.mem_cons_self c cs)
      have hcs : '/' ∉ cs := fun e => h (List.mem_cons_of_mem c e)
      simp [splitOnSlash, hc, ih hcs]

theorem splitOnSlash_append_cons (a b : List Char) (h : '/' ∉ a) :
    splitOnSlash (a ++ '/' :: b) = a :: splitOnSlash b := by
  induction a with
  | nil => simp [splitOnSlash]
  | cons c a' ih =>
      have hc : ¬ c = '/' := fun e => h (e ▸ List.mem_cons_self c a')
      have ha' : '/' ∉ a' := fun e => h (List.mem_cons_of_mem c e)
      simp [splitOnSlash, hc, ih ha']

theorem splitOnSlash_append_slash (xs : List Char) :
    splitOnSlash (xs ++ ['/']) = splitOnSlash xs ++ [[]] := by
  induction xs with
  | nil => rfl
  | cons c xs' ih =>
      by_cases hc : c = '/'
      · subst hc
        simp [splitOnSlash, ih]
      · have hne := splitOnSlash_ne_nil xs'
        cases hsp : splitOnSlash xs' with
        | nil => exact absurd hsp hne
        | cons t ts => simp [List.cons_append, splitOnSlash, ih, hc, hsp]

theorem joinSlash_cons (s : List Char) (rest : List (List Char)) (h : rest ≠ []) :
    joinSlash (s :: rest) = s ++ '/' :: joinSlash rest := by
  cases rest with
  | nil => exact absurd rfl h
  | cons t ts => rfl

theorem splitOnSlash_joinSlash :
    ∀ (p : List (List Char)), p ≠ [] → (∀ s ∈ p, '/' ∉ s) →
      splitOnSlash (joinSlash p) = p
  | [], h, _ => absurd rfl h
  | [s], _, hsf => by
      simpa [joinSlash] using splitOnSlash_noslash s (hsf s (List.mem_cons_self s []))
  | s :: t :: rest, _, hsf => by
      rw [joinSlash_cons s (t :: rest) (List.cons_ne_nil t rest),
        splitOnSlash_append_cons _ _ (hsf s (List.mem_cons_self s _)),
        splitOnSlash_joinSlash (t :: rest) (List.cons_ne_nil t rest)
          (fun x hx => hsf x (List.mem_cons_of_mem s hx))]

theorem mem_initsTail {α : Type} (r t : List α) :
    r ∈ t.inits.tail ↔ r <+: t ∧ r ≠ [] := by
  cases t with
  | nil =>
      constructor
      · intro h
        simp [List.inits] at h
      · rintro ⟨hpre, hne⟩
        exact absurd (List.prefix_nil.mp hpre) hne
  | cons a t' =>
      rw [List.inits_cons]
      simp only [List.tail_cons, List.mem_map, List.mem_inits]
      constructor
      · rintro ⟨r', hr', rfl⟩
        exact ⟨List.cons_prefix_cons.mpr ⟨rfl, hr'⟩, List.cons_ne_nil a r'⟩
      · rintro ⟨hpre, hne⟩
        cases r with
        | nil => exact absurd rfl hne
        | cons b r'' =>
            obtain ⟨hb, hr''⟩ := List.cons_prefix_cons.mp hpre
            exact ⟨r'', hr'', by rw [hb]⟩

theorem mem_contigRuns (r : List (List Char)) (l : List (List Char)) :
    r ∈ contigRuns l ↔ r ≠ [] ∧ ∃ pre post, l = pre ++ (r ++ post) := by
  unfold contigRuns
  rw [List.mem_flatMap]
  constructor
  · rintro ⟨t, ht, hr⟩
    rw [List.mem_tails] at ht
    rw [mem_initsTail] at hr
    obtain ⟨⟨post, hpost⟩, hne⟩ := hr
    obtain ⟨pre, hpre⟩ := ht
    exact ⟨hne, pre, post, by rw [← hpre, ← hpost]⟩
  · rintro ⟨hne, pre, post, rfl⟩
    refine ⟨r ++ post, ?_, (mem_initsTail _ _).mpr ⟨⟨post, rfl⟩, hne⟩⟩
    rw [List.mem_tails]
    exact ⟨pre, rfl⟩

theorem contigRuns_single (a : List Char) (l : List (List Char)) (h : a ∈ l) :
    [a] ∈ contigRuns l := by
  rw [mem_contigRuns]
  obtain ⟨pre, post, rfl⟩ := List.append_of_mem h
  exact ⟨by simp, pre, post, by simp⟩

theorem contigRuns_mono (r l m : List (List Char)) (hpre : l <+: m)
    (h : r ∈ contigRuns l) : r ∈ contigRuns m := by
  rw [mem_contigRuns] at h ⊢
  obtain ⟨hne, pre, post, rfl⟩ := h
  obtain ⟨ext, rfl⟩ := hpre
  exact ⟨hne, pre, post ++ ext, by simp⟩

/-! ## Always-ignored paths and directory rules -/

theorem shouldIgnore_of_matchesPath (ig : Ignorer) (p : List Char)
    (h : ig.gi.MatchesPath p = true) : ig.ShouldIgnore p = true := by
  simp [Ignorer.ShouldIgnore, h]

theorem matchesPath_of_rule (gi : GitIgnore) (r : Rule) (p : List Char)
    (hr : r ∈ gi.rules) (hm : r.matches p = true) : gi.MatchesPath p = true := by
  simp only [GitIgnore.MatchesPath, List.any_eq_true]
  exact ⟨r, hr, hm⟩

theorem newIgnorer_rules (gl pl ex : List (List Char)) (ug up : Bool) :
    ∃ rest, (NewIgnorer gl pl ex ug up).gi.rules
      = Rule.glob "blink.toml".data :: Rule.glob ".git".data :: rest := by
  refine ⟨(CompileIgnoreLines ((if ug then gitignoreScan gl else [])
    ++ (if up then parsePkgMetaIgnore pl else []) ++ ex)).rules, ?_⟩
  show (CompileIgnoreLines _).rules = _
  unfold CompileIgnoreLines
  simp [List.filterMap_append, compileRule]

/-- C6: whatever the `.gitignore` lines, `.pkgmeta` lines, extra patterns
and flags contribute, the compiled pattern set of `NewIgnorer` ignores the
version-control metadata directory `.git`, anything beneath it, and the
tool's own configuration file `blink.toml`. -/
theorem newIgnorer_always_ignored (gl pl ex : List (List Char)) (ug up : Bool)
    (s : List Char) :
    (NewIgnorer gl pl ex ug up).ShouldIgnore ".git".data = true
      ∧ (NewIgnorer gl pl ex ug up).ShouldIgnore (".git/".data ++ s) = true
      ∧ (NewIgnorer gl pl ex ug up).ShouldIgnore "blink.toml".data = true := by
  obtain ⟨rest, hrules⟩ := newIgnorer_rules gl pl ex ug up
  have hgit : Rule.glob ".git".data ∈ (NewIgnorer gl pl ex ug up).gi.rules := by
    rw [hrules]
    exact List.mem_cons_of_mem _ (List.mem_cons_self _ _)
  have hbt : Rule.glob "blink.toml".data ∈ (NewIgnorer gl pl ex ug up).gi.rules := by
    rw [hrules]
    exact List.mem_cons_self _ _
  refine ⟨?_, ?_, ?_⟩
  · exact shouldIgnore_of_matchesPath _ _
      (matchesPath_of_rule _ _ _ hgit (by decide))
  · refine shouldIgnore_of_matchesPath _ _ (matchesPath_of_rule _ _ _ hgit ?_)
    show (contigRuns (splitOnSlash (".git/".data ++ s))).any
      (fun r => globMatch ".git".data (joinSlash r)) = true
    have hsplit : splitOnSlash (".git/".data ++ s) = ".git".data :: splitOnSlash s := by
      have : ".git/".data ++ s = ".git".data ++ '/' :: s := rfl
      rw [this, splitOnSlash_append_cons _ _ (by decide)]
    rw [hsplit]
    simp only [List.any_eq_true]
    refine ⟨[".git".data], contigRuns_single _ _ (List.mem_cons_self _ _), by decide⟩
  · exact shouldIgnore_of_matchesPath _ _
      (matchesPath_of_rule _ _ _ hbt (by decide))

theorem globMatch_lit_self (g : List Char)
    (h : ∀ c ∈ g, ¬ c = '*' ∧ ¬ c = '?') : globMatch g g = true := by
  induction g with
  | nil => rfl
  | cons c g' ih =>
      obtain ⟨hstar, hq⟩ := h c (List.mem_cons_self c g')
      simp [globMatch, hstar, hq, ih (fun x hx => h x (List.mem_cons_of_mem c hx))]

/-- C7: a pattern set holding a directory rule for the literal name `d`
ignores the path `d` itself, every path under `d/`, and every path in
which `d` appears as an exact segment.  (The hypotheses pin `d` down as a
literal directory name: nonempty, slash-free, without glob
metacharacters.) -/
theorem dirRule_ignores_segment (ig : Ignorer) (d P : List Char)
    (hrule : Rule.dir d ∈ ig.gi.rules)
    (hne : d ≠ []) (hsl : '/' ∉ d)
    (hlit : ∀ c ∈ d, ¬ c = '*' ∧ ¬ c = '?')
    (hP : P = d ∨ (d ++ ['/']) <+: P ∨ d ∈ splitOnSlash P) :
    ig.ShouldIgnore P = true := by
  have hmem : d ∈ splitOnSlash P := by
    rcases hP with heq | hpre | hmem
    · rw [heq, splitOnSlash_noslash d hsl]
      exact List.mem_cons_self d []
    · obtain ⟨t, rfl⟩ := hpre
      rw [List.append_assoc, List.singleton_append,
        splitOnSlash_append_cons _ _ hsl]
      exact List.mem_cons_self d _
    · exact hmem
  have hglobd : globMatch d (joinSlash [d]) = true := by
    simpa [joinSlash] using globMatch_lit_self d hlit
  by_cases hlast : P.getLast? = some '/'
  · have hsplit : P.dropLast ++ ['/'] = P := List.dropLast_append_getLast? '/' hlast
    have hmem' : d ∈ splitOnSlash P.dropLast := by
      rw [← hsplit, splitOnSlash_append_slash] at hmem
      rcases List.mem_append.mp hmem with h | h
      · exact h
      · simp at h
        exact absurd h hne
    have hm : (Rule.dir d).matches P = true := by
      show (contigRuns ((splitOnSlash P).dropLast)).any
        (fun r => globMatch d (joinSlash r)) = true
      rw [← hsplit, splitOnSlash_append_slash, List.dropLast_concat]
      simp only [List.any_eq_true]
      exact ⟨[d], contigRuns_single _ _ hmem', hglobd⟩
    exact shouldIgnore_of_matchesPath _ _ (matchesPath_of_rule _ _ _ hrule hm)
  · have hm : (Rule.dir d).matches (P ++ ['/']) = true := by
      show (contigRuns ((splitOnSlash (P ++ ['/'])).dropLast)).any
        (fun r => globMatch d (joinSlash r)) = true
      rw [splitOnSlash_append_slash, List.dropLast_concat]
      simp only [List.any_eq_true]
      exact ⟨[d], contigRuns_single _ _ hmem, hglobd⟩
    have h2 := matchesPath_of_rule _ _ _ hrule hm
    by_cases h1 : ig.gi.MatchesPath P = true
    · exact shouldIgnore_of_matchesPath _ _ h1
    · simp [Ignorer.ShouldIgnore, h1, hlast, h2]

/-- Witness for C7: the pattern set compiled from the extra pattern
`node_modules/` ignores `node_modules`, `node_modules/foo` and
`x/node_modules/y`. -/
theorem dirRule_ignores_segment_witness :
    (Rule.dir "node_modules".data
          ∈ (NewIgnorer [] [] ["node_modules/".data] false false).gi.rules
        ∧ "node_modules".data ≠ []
        ∧ '/' ∉ "node_modules".data
        ∧ (∀ c ∈ "node_modules".data, ¬ c = '*' ∧ ¬ c = '?')
        ∧ "node_modules".data ∈ splitOnSlash "x/node_modules/y".data)
      ∧ (NewIgnorer [] [] ["node_modules/".data] false false).ShouldIgnore
          "x/node_modules/y".data = true :=
  ⟨⟨by decide, by decide, by decide, by decide, by decide⟩,
    dirRule_ignores_segment _ "node_modules".data "x/node_modules/y".data
      (by decide) (by decide) (by decide) (by decide)
      (Or.inr (Or.inr (by decide)))⟩

/-! ## Empty-directory removal -/

theorem dirExists_iff (fs : FS) (p : RPath) : dirExists fs p = true ↔ p ∈ fs.dirs := by
  simp only [dirExists, List.any_eq_true, decide_eq_true_eq]
  constructor
  · rintro ⟨d, hd, rfl⟩
    exact hd
  · intro h
    exact ⟨p, h, rfl⟩

theorem mem_fsDropDir (fs : FS) (d c : RPath) :
    c ∈ (fsDropDir fs d).dirs ↔ c ∈ fs.dirs ∧ ¬ c = d := by
  simp [fsDropDir, List.mem_filter]

/-- A path whose parent is `d` is a proper extension of `d`. -/
theorem properExt_of_dropLast (p d : RPath) (hd : ¬ d = []) (h : p.dropLast = d) :
    d <+: p ∧ ¬ d = p := by
  have hp : p ≠ [] := by
    intro e
    rw [e] at h
    exact hd h.symm
  have hsplit : p.dropLast ++ [p.getLast hp] = p := List.dropLast_append_getLast hp
  rw [h] at hsplit
  constructor
  · exact ⟨[p.getLast hp], hsplit⟩
  · intro e
    have hlen : d.length + 1 = p.length := by
      simpa using congrArg List.length hsplit
    rw [e] at hlen
    omega

/-- A directory that is not empty has an immediate child entry. -/
theorem dirEmptyIn_false_elim (fs : FS) (c : RPath) (h : dirEmptyIn fs c = false) :
    (∃ f ∈ fs.files, f.1.dropLast = c) ∨ (∃ x ∈ fs.dirs, x.dropLast = c) := by
  by_contra hcon
  push_neg at hcon
  obtain ⟨h1, h2⟩ := hcon
  have : dirEmptyIn fs c = true := by
    simp only [dirEmptyIn, Bool.and_eq_true, List.all_eq_true]
    constructor
    · intro f hf
      simp only [Bool.not_eq_true', decide_eq_false_iff_not]
      exact h1 f hf
    · intro x hx
      simp only [Bool.not_eq_true', decide_eq_false_iff_not]
      exact h2 x hx
  rw [h] at this
  exact Bool.false_ne_true this

/-- Invariant of the bottom-up pass: provided parents were collected
before children and every already-dropped-from-the-worklist directory
still listed has a descendant file, every directory surviving the pass has
a descendant file. -/
theorem cleanPass2_inv :
    ∀ (ds : List RPath) (fs : FS),
    ds.Pairwise (fun a b => ¬ (a <+: b ∧ ¬ a = b)) →
    ([] : RPath) ∉ fs.dirs →
    (∀ c ∈ fs.dirs, c ∉ ds → ∃ f ∈ fs.files, c <+: f.1 ∧ ¬ c = f.1) →
    ∀ c ∈ (cleanPass2 ds fs).dirs,
      ∃ f ∈ (cleanPass2 ds fs).files, c <+: f.1 ∧ ¬ c = f.1
  | [], fs, _, _, hinv => by
      intro c hc
      exact hinv c hc (List.not_mem_nil c)
  | d :: rest, fs, hpw, hroot, hinv => by
      obtain ⟨hpwd, hpwrest⟩ := List.pairwise_cons.mp hpw
      rw [cleanPass2]
      by_cases hcond : (dirExists fs d && dirEmptyIn fs d) = true
      · rw [if_pos hcond]
        refine cleanPass2_inv rest (fsDropDir fs d) hpwrest ?_ ?_
        · intro h
          exact hroot ((mem_fsDropDir fs d []).mp h).1
        · intro c hc hcr
          obtain ⟨hcd, hcne⟩ := (mem_fsDropDir fs d c).mp hc
          have hnotin : c ∉ d :: rest := by
            intro h
            rcases List.mem_cons.mp h with h | h
            · exact hcne h
            · exact hcr h
          exact hinv c hcd hnotin
      · rw [if_neg hcond]
        refine cleanPass2_inv rest fs hpwrest hroot ?_
        intro c hc hcr
        by_cases hcd : c = d
        · subst hcd
          have hde : dirExists fs c = true := (dirExists_iff fs c).mpr hc
          have hdne : ¬ c = [] := fun e => hroot (e ▸ hc)
          have hnotempty : dirEmptyIn fs c = false := by
            cases h : dirEmptyIn fs c with
            | false => rfl
            | true => exact absurd (by simp [hde, h]) hcond
          rcases dirEmptyIn_false_elim fs c hnotempty with ⟨f, hf, hfc⟩ | ⟨x, hx, hxc⟩
          · exact ⟨f, hf, properExt_of_dropLast f.1 c hdne hfc⟩
          · have hxne : ¬ x = [] := fun e => hroot (e ▸ hx)
            obtain ⟨hcx, hcnex⟩ := properExt_of_dropLast x c hdne hxc
            by_cases hxrest : x ∈ rest
            · exact absurd ⟨hcx, hcnex⟩ (hpwd x hxrest)
            · have hxnotin : x ∉ c :: rest := by
                intro h
                rcases List.mem_cons.mp h with h | h
                · exact hcnex h.symm
                · exact hxrest h
              obtain ⟨f, hf, hxf, hxnef⟩ := hinv x hx hxnotin
              refine ⟨f, hf, ?_, ?_⟩
              · obtain ⟨u, hu⟩ := hcx
                obtain ⟨v, hv⟩ := hxf
                exact ⟨u ++ v, by rw [← List.append_assoc, hu, hv]⟩
              · intro e
                obtain ⟨u, hu⟩ := hcx
                obtain ⟨v, hv⟩ := hxf
                have hlen : f.1.length = c.length + u.length + v.length := by
                  rw [← hv, ← hu]
                  simp [Nat.add_assoc]
                have hune : u ≠ [] := by
                  intro e2
                  rw [e2, List.append_nil] at hu
                  exact hcnex hu
                have : 1 ≤ u.length := Nat.one_le_iff_ne_zero.mpr
                  (fun e3 => hune (List.eq_nil_of_length_eq_zero e3))
                rw [← e] at hlen
                omega
        · have hnotin : c ∉ d :: rest := by
            intro h
            rcases List.mem_cons.mp h with h | h
            · exact hcd h
            · exact hcr h
          exact hinv c hc hnotin

/-- C8: after the file-removal pass, the bottom-up second pass of
`CleanDestination` removes every destination directory left without any
descendant file.  The order hypothesis states what the destination walk
guarantees: no directory is listed after a proper descendant of its own;
the root itself is never listed. -/
theorem cleanDestination_removes_empty_dirs (src dst : FS) (ig : Option Ignorer)
    (hpw : dst.dirs.Pairwise (fun a b => ¬ (b <+: a ∧ ¬ b = a)))
    (hroot : ([] : RPath) ∉ dst.dirs)
    (d : RPath) (_hd : d ∈ dst.dirs)
    (hEmpty : ∀ f ∈ (CleanDestination src dst ig).1.files, ¬ (d <+: f.1 ∧ ¬ d = f.1)) :
    d ∉ (CleanDestination src dst ig).1.dirs := by
  intro hcontra
  have hdirs1 : (cleanPass1 src ig dst.files dst 0).1.dirs = dst.dirs :=
    cleanPass1_dirs src ig dst.files dst 0
  have hres : (CleanDestination src dst ig).1
      = cleanPass2 (cleanPass1 src ig dst.files dst 0).1.dirs.reverse
          (cleanPass1 src ig dst.files dst 0).1 := rfl
  rw [hres] at hcontra hEmpty
  have hpw' : ((cleanPass1 src ig dst.files dst 0).1.dirs.reverse).Pairwise
      (fun a b => ¬ (a <+: b ∧ ¬ a = b)) := by
    rw [hdirs1, List.pairwise_reverse]
    exact hpw
  have hroot' : ([] : RPath) ∉ (cleanPass1 src ig dst.files dst 0).1.dirs := by
    rw [hdirs1]
    exact hroot
  have hinv : ∀ c ∈ (cleanPass1 src ig dst.files dst 0).1.dirs,
      c ∉ (cleanPass1 src ig dst.files dst 0).1.dirs.reverse →
      ∃ f ∈ (cleanPass1 src ig dst.files dst 0).1.files, c <+: f.1 ∧ ¬ c = f.1 := by
    intro c hcmem hcnot
    exact absurd (List.mem_reverse.mpr hcmem) hcnot
  obtain ⟨f, hf, hprop⟩ := cleanPass2_inv _ _ hpw' hroot' hinv d hcontra
  rw [cleanPass2_files] at hf
  exact hEmpty f (by rw [cleanPass2_files]; exact hf) hprop

/-- Destination tree with `libs/old.lua` as its only file. -/
def sampleDstLibs : FS := ⟨[(["libs".data, "old.lua".data], [2])], [["libs".data]]⟩

/-- Witness for C8: cleanup of `sampleDstLibs` against an empty source
removes `libs/old.lua`, and the now-empty `libs/` directory with it. -/
theorem cleanDestination_removes_empty_dirs_witness :
    ((⟨[], []⟩ : FS).files = []
        ∧ sampleDstLibs.dirs.Pairwise (fun a b => ¬ (b <+: a ∧ ¬ b = a))
        ∧ ([] : RPath) ∉ sampleDstLibs.dirs
        ∧ ["libs".data] ∈ sampleDstLibs.dirs
        ∧ (∀ f ∈ (CleanDestination ⟨[], []⟩ sampleDstLibs none).1.files,
            ¬ (["libs".data] <+: f.1 ∧ ¬ ["libs".data] = f.1)))
      ∧ ["libs".data] ∉ (CleanDestination ⟨[], []⟩ sampleDstLibs none).1.dirs :=
  ⟨⟨rfl, by decide, by decide, by decide, by decide⟩,
    cleanDestination_removes_empty_dirs ⟨[], []⟩ sampleDstLibs none
      (by decide) (by decide) ["libs".data] (by decide) (by decide)⟩

/-! ## Glob lemmas for the subtree-pruning argument -/

theorem starDrops_iff (s t : List Char) :
    t ∈ starDrops s ↔ ∃ u, s = u ++ t ∧ '/' ∉ u := by
  induction s generalizing t with
  | nil =>
      constructor
      · intro h
        simp only [starDrops, List.mem_singleton] at h
        exact ⟨[], by simp [h], by simp⟩
      · rintro ⟨u, hu, _⟩
        obtain ⟨rfl, rfl⟩ := List.append_eq_nil.mp hu.symm
        simp [starDrops]
  | cons c cs ih =>
      constructor
      · intro h
        simp only [starDrops, List.mem_cons] at h
        rcases h with rfl | h
        · exact ⟨[], rfl, by simp⟩
        · by_cases hc : c = '/'
          · rw [if_pos hc] at h
            exact absurd h (List.not_mem_nil t)
          · rw [if_neg hc] at h
            obtain ⟨u, hu, hnu⟩ := (ih t).mp h
            refine ⟨c :: u, by rw [List.cons_append, hu], ?_⟩
            intro hmem
            rcases List.mem_cons.mp hmem with h2 | h2
            · exact hc h2.symm
            · exact hnu h2
      · rintro ⟨u, hu, hnu⟩
        cases u with
        | nil =>
            simp only [List.nil_append] at hu
            rw [← hu]
            exact List.mem_cons_self _ _
        | cons a u' =>
            rw [List.cons_append] at hu
            injection hu with h1 h2
            have ha : ¬ a = '/' := fun e => hnu (e ▸ List.mem_cons_self a u')
            have hc : ¬ c = '/' := h1 ▸ ha
            simp only [starDrops, List.mem_cons]
            right
            rw [if_neg hc]
            exact (ih t).mpr ⟨u', h2, fun e => hnu (List.mem_cons_of_mem a e)⟩

theorem globMatch_nil_allStars (g : List Char) :
    globMatch g [] = true ↔ ∀ c ∈ g, c = '*' := by
  induction g with
  | nil => simp [globMatch]
  | cons c g' ih =>
      by_cases hc : c = '*'
      · subst hc
        simp [globMatch, starDrops, ih]
      · simp [globMatch, hc]

theorem allStars_match (g : List Char) (hstars : ∀ c ∈ g, c = '*') (hne : g ≠ [])
    (w : List Char) (hw : '/' ∉ w) : globMatch g w = true := by
  induction g with
  | nil => exact absurd rfl hne
  | cons c g' ih =>
      have hc : c = '*' := hstars c (List.mem_cons_self c g')
      subst hc
      simp only [globMatch, if_pos, List.any_eq_true]
      by_cases hg' : g' = []
      · subst hg'
        refine ⟨[], (starDrops_iff w []).mpr ⟨w, by simp, hw⟩, rfl⟩
      · refine ⟨w, (starDrops_iff w w).mpr ⟨[], by simp⟩, ?_⟩
        exact ih (fun x hx => hstars x (List.mem_cons_of_mem _ hx)) hg'

theorem getLastQ_cons_of_ne_nil (c : Char) (g : List Char) (h : g ≠ []) :
    (c :: g).getLast? = g.getLast? := by
  cases g with
  | nil => exact absurd rfl h
  | cons b g' => exact List.getLast?_cons_cons

theorem globMatch_extend_slash :
    ∀ (g z w : List Char), ¬ g.getLast? = some '/' →
      globMatch g (z ++ ['/']) = true → '/' ∉ w →
      globMatch g (z ++ '/' :: w) = true
  | [], z, w, _, hm, _ => by
      simp [globMatch] at hm
  | c :: g', z, w, hgl, hm, hw => by
      by_cases hc : c = '*'
      · subst hc
        simp only [globMatch, if_pos, List.any_eq_true] at hm ⊢
        obtain ⟨t, ht, hmt⟩ := hm
        obtain ⟨u, hu, hnu⟩ := (starDrops_iff _ t).mp ht
        have htne : t ≠ [] := by
          rintro rfl
          rw [List.append_nil] at hu
          exact hnu (hu ▸ List.mem_append_right z (List.mem_cons_self '/' []))
        have htlast : t.getLast? = some '/' := by
          have h1 := congrArg List.getLast? hu
          rw [List.getLast?_concat, List.getLast?_append_of_ne_nil u htne] at h1
          exact h1.symm
        have htsplit : t.dropLast ++ ['/'] = t := List.dropLast_append_getLast? '/' htlast
        have hz : z = u ++ t.dropLast := by
          have h1 := congrArg List.dropLast hu
          rw [List.dropLast_concat, ← htsplit, ← List.append_assoc,
            List.dropLast_concat] at h1
          exact h1
        have hg'ne : g' ≠ [] := by
          rintro rfl
          rw [← htsplit] at hmt
          simp [globMatch] at hmt
        have hgl' : ¬ g'.getLast? = some '/' := by
          rwa [getLastQ_cons_of_ne_nil '*' g' hg'ne] at hgl
        have hrec := globMatch_extend_slash g' t.dropLast w hgl'
          (by rwa [htsplit]) hw
        refine ⟨t.dropLast ++ '/' :: w, ?_, hrec⟩
        refine (starDrops_iff _ _).mpr ⟨u, ?_, hnu⟩
        rw [hz, List.append_assoc]
      · cases z with
        | nil =>
            have hm' : (decide (c = '/') && globMatch g' []) = true := by
              have h1 : globMatch (c :: g') ['/'] = true := by simpa using hm
              by_cases hq : c = '?'
              · exfalso
                rw [hq] at h1
                simp [globMatch] at h1
              · simpa [globMatch, hc, hq] using h1
            obtain ⟨hcs, hg'nil⟩ := Bool.and_eq_true_iff.mp hm'
            have hcslash : c = '/' := of_decide_eq_true hcs
            have hstars := (globMatch_nil_allStars g').mp hg'nil
            have hg'ne : g' ≠ [] := by
              rintro rfl
              rw [hcslash] at hgl
              exact hgl rfl
            subst hcslash
            have hgoal : globMatch ('/' :: g') ([] ++ '/' :: w) = globMatch g' w := by
              simp [globMatch, hc]
            rw [hgoal]
            exact allStars_match g' hstars hg'ne w hw
        | cons a z' =>
            have hm' : ((if c = '?' then !(decide (a = '/')) else decide (c = a))
                && globMatch g' (z' ++ ['/'])) = true := by
              simpa [globMatch, hc] using hm
            obtain ⟨hpred, hrest⟩ := Bool.and_eq_true_iff.mp hm'
            have hg'ne : g' ≠ [] := by
              rintro rfl
              simp [globMatch] at hrest
            have hgl' : ¬ g'.getLast? = some '/' := by
              rwa [getLastQ_cons_of_ne_nil c g' hg'ne] at hgl
            have hrec := globMatch_extend_slash g' z' w hgl' hrest hw
            have hgoal : globMatch (c :: g') ((a :: z') ++ '/' :: w)
                = ((if c = '?' then !(decide (a = '/')) else decide (c = a))
                    && globMatch g' (z' ++ '/' :: w)) := by
              simp [globMatch, hc]
            rw [hgoal, hpred, hrec]
            rfl

theorem joinSlash_append_single :
    ∀ (S : List (List Char)) (e : List Char), S ≠ [] →
      joinSlash (S ++ [e]) = joinSlash S ++ '/' :: e
  | [], _, h => absurd rfl h
  | [s], e, _ => rfl
  | s :: t :: rest, e, _ => by
      rw [List.cons_append, joinSlash_cons s ((t :: rest) ++ [e]) (by simp),
        joinSlash_cons s (t :: rest) (List.cons_ne_nil t rest),
        joinSlash_append_single (t :: rest) e (List.cons_ne_nil t rest)]
      simp

/-- Well-formedness of the rules a compiled pattern set can contain: a
glob rule is never empty and never ends in a separator (such lines compile
to directory rules or to no rule at all). -/
theorem newIgnorer_wf (gl pl ex : List (List Char)) (ug up : Bool) :
    ∀ r ∈ (NewIgnorer gl pl ex ug up).gi.rules,
      ∀ g, r = Rule.glob g → ¬ g = [] ∧ ¬ g.getLast? = some '/' := by
  intro r hr g hg
  subst hg
  have hr' : Rule.glob g ∈ List.filterMap compileRule
      ((["blink.toml".data, ".git".data]
        ++ (if ug then gitignoreScan gl else []))
        ++ (if up then parsePkgMetaIgnore pl else []) ++ ex) := hr
  obtain ⟨pat, _, hcomp⟩ := List.mem_filterMap.mp hr'
  unfold compileRule at hcomp
  by_cases h1 : pat = []
  · rw [if_pos h1] at hcomp
    exact absurd hcomp (by simp)
  · rw [if_neg h1] at hcomp
    by_cases h2 : pat.getLast? = some '/'
    · rw [if_pos h2] at hcomp
      exact absurd (Option.some.inj hcomp) (by simp)
    · rw [if_neg h2] at hcomp
      have : pat = g := by
        have := Option.some.inj hcomp
        exact Rule.glob.inj this
      subst this
      exact ⟨h1, h2⟩

/-- Pruning monotonicity: when a nonempty proper prefix of a slash-free
segment path is ignored, the whole path is ignored too — a file beneath an
ignored directory is itself ignored. -/
theorem shouldIgnore_mono (ig : Ignorer)
    (hwf : ∀ r ∈ ig.gi.rules, ∀ g, r = Rule.glob g → ¬ g = [] ∧ ¬ g.getLast? = some '/')
    (q p : RPath) (hqne : q ≠ []) (hpre : q <+: p) (hne : ¬ q = p)
    (hsf : ∀ s ∈ p, '/' ∉ s)
    (hq : ig.ShouldIgnore (joinSlash q) = true) :
    ig.ShouldIgnore (joinSlash p) = true := by
  obtain ⟨ext, rfl⟩ := hpre
  have hext : ext ≠ [] := by
    rintro rfl
    exact hne (by rw [List.append_nil])
  have hsfq : ∀ s ∈ q, '/' ∉ s := fun s hs => hsf s (List.mem_append_left ext hs)
  have hpne : q ++ ext ≠ [] := by
    intro e
    exact hqne (List.append_eq_nil.mp e).1
  have hsplitq : splitOnSlash (joinSlash q) = q := splitOnSlash_joinSlash q hqne hsfq
  have hsplitp : splitOnSlash (joinSlash (q ++ ext)) = q ++ ext :=
    splitOnSlash_joinSlash _ hpne hsf
  have hdropp : (q ++ ext).dropLast = q ++ ext.dropLast := by
    cases ext with
    | nil => exact absurd rfl hext
    | cons e ext' => exact List.dropLast_append_cons
  have hqdrop : q <+: (q ++ ext).dropLast := by
    rw [hdropp]
    exact List.prefix_append q ext.dropLast
  by_cases hmq : ig.gi.MatchesPath (joinSlash q) = true
  · obtain ⟨r, hr, hm⟩ : ∃ r ∈ ig.gi.rules, r.matches (joinSlash q) = true := by
      simpa [GitIgnore.MatchesPath, List.any_eq_true] using hmq
    apply shouldIgnore_of_matchesPath
    apply matchesPath_of_rule _ r _ hr
    cases r with
    | dir g =>
        simp only [Rule.matches, List.any_eq_true] at hm ⊢
        obtain ⟨R, hR, hg⟩ := hm
        rw [hsplitq] at hR
        rw [hsplitp]
        have hstep : q.dropLast <+: (q ++ ext).dropLast := by
          rw [hdropp]
          exact ⟨[q.getLast hqne] ++ ext.dropLast, by
            rw [← List.append_assoc, List.dropLast_append_getLast hqne]⟩
        exact ⟨R, contigRuns_mono R _ _ hstep hR, hg⟩
    | glob g =>
        simp only [Rule.matches, List.any_eq_true] at hm ⊢
        obtain ⟨R, hR, hg⟩ := hm
        rw [hsplitq] at hR
        rw [hsplitp]
        exact ⟨R, contigRuns_mono R _ _ (List.prefix_append q ext) hR, hg⟩
  · have hstep : ¬ (joinSlash q).getLast? = some '/'
        ∧ ig.gi.MatchesPath (joinSlash q ++ ['/']) = true := by
      by_cases hend : (joinSlash q).getLast? = some '/'
      · exfalso
        rw [Ignorer.ShouldIgnore, if_neg (by simp [hmq]), if_neg (by simp [hend])] at hq
        exact Bool.false_ne_true hq
      · refine ⟨hend, ?_⟩
        rw [Ignorer.ShouldIgnore, if_neg (by simp [hmq]), if_pos (by simp [hend])] at hq
        exact hq
    obtain ⟨hend, hmq2⟩ := hstep
    obtain ⟨r, hr, hm⟩ : ∃ r ∈ ig.gi.rules, r.matches (joinSlash q ++ ['/']) = true := by
      simpa [GitIgnore.MatchesPath, List.any_eq_true] using hmq2
    have hsplitq2 : splitOnSlash (joinSlash q ++ ['/']) = q ++ [[]] := by
      rw [splitOnSlash_append_slash, hsplitq]
    apply shouldIgnore_of_matchesPath
    apply matchesPath_of_rule _ r _ hr
    cases r with
    | dir g =>
        simp only [Rule.matches, List.any_eq_true] at hm ⊢
        obtain ⟨R, hR, hg⟩ := hm
        rw [hsplitq2, List.dropLast_concat] at hR
        rw [hsplitp, hdropp]
        exact ⟨R, contigRuns_mono R _ _ (List.prefix_append q ext.dropLast) hR, hg⟩
    | glob g =>
        simp only [Rule.matches, List.any_eq_true] at hm ⊢
        obtain ⟨R, hR, hg⟩ := hm
        rw [hsplitq2] at hR
        rw [mem_contigRuns] at hR
        obtain ⟨hRne, pre, post, heq⟩ := hR
        obtain ⟨hgne, hglast⟩ := hwf _ hr g rfl
        rw [hsplitp]
        by_cases hpost : post = []
        · subst hpost
          rw [List.append_nil] at heq
          have hRlast : R.getLast? = some [] := by
            have h1 := congrArg List.getLast? heq
            rw [List.getLast?_concat, List.getLast?_append_of_ne_nil pre hRne] at h1
            exact h1.symm
          have hRsplit : R.dropLast ++ [[]] = R :=
            List.dropLast_append_getLast? [] hRlast
          have hq_eq : q = pre ++ R.dropLast := by
            have h1 := congrArg List.dropLast heq
            rw [List.dropLast_concat, ← hRsplit, ← List.append_assoc,
              List.dropLast_concat] at h1
            exact h1
          by_cases hS : R.dropLast = []
          · have hjoin : joinSlash R = [] := by
              rw [← hRsplit, hS]
              rfl
            rw [hjoin] at hg
            have hstars := (globMatch_nil_allStars g).mp hg
            obtain ⟨q0, q', rfl⟩ : ∃ q0 q', q = q0 :: q' := by
              cases q with
              | nil => exact absurd rfl hqne
              | cons q0 q' => exact ⟨q0, q', rfl⟩
            refine ⟨[q0], contigRuns_single _ _
              (List.mem_append_left ext (List.mem_cons_self q0 q')), ?_⟩
            show globMatch g (joinSlash [q0]) = true
            exact allStars_match g hstars hgne q0
              (hsfq q0 (List.mem_cons_self q0 q'))
          · have hjoin : joinSlash R = joinSlash R.dropLast ++ '/' :: [] := by
              rw [← joinSlash_append_single R.dropLast [] hS, hRsplit]
            rw [hjoin] at hg
            obtain ⟨e, ext', rfl⟩ : ∃ e ext', ext = e :: ext' := by
              cases ext with
              | nil => exact absurd rfl hext
              | cons e ext' => exact ⟨e, ext', rfl⟩
            have hsfe : '/' ∉ e :=
              hsf e (List.mem_append_right q (List.mem_cons_self e ext'))
            have hg2 : globMatch g (joinSlash R.dropLast ++ '/' :: e) = true :=
              globMatch_extend_slash g (joinSlash R.dropLast) e hglast hg hsfe
            have hjoin2 : joinSlash (R.dropLast ++ [e])
                = joinSlash R.dropLast ++ '/' :: e :=
              joinSlash_append_single R.dropLast e hS
            refine ⟨R.dropLast ++ [e], ?_, by rw [hjoin2]; exact hg2⟩
            rw [mem_contigRuns]
            refine ⟨by simp, pre, ext', ?_⟩
            rw [hq_eq]
            simp
        · have hpostlast : post.getLast? = some [] := by
            have h1 := congrArg List.getLast? heq
            rw [List.getLast?_concat,
              List.getLast?_append_of_ne_nil pre (by simp [hpost] : R ++ post ≠ []),
              List.getLast?_append_of_ne_nil R hpost] at h1
            exact h1.symm
          have hpostsplit : post.dropLast ++ [[]] = post :=
            List.dropLast_append_getLast? [] hpostlast
          have hq_eq : q = pre ++ (R ++ post.dropLast) := by
            have h1 := congrArg List.dropLast heq
            rw [List.dropLast_concat] at h1
            rw [← hpostsplit] at h1
            have hassoc : pre ++ (R ++ (post.dropLast ++ [[]]))
                = (pre ++ (R ++ post.dropLast)) ++ [[]] := by
              simp [List.append_assoc]
            rw [hassoc, List.dropLast_concat] at h1
            exact h1
          refine ⟨R, ?_, hg⟩
          rw [mem_contigRuns]
          refine ⟨hRne, pre, post.dropLast ++ ext, ?_⟩
          rw [hq_eq]
          simp

/-! ## Initial-sync round trip -/

theorem syncFiles_lookup_untouched (ig : Ignorer) :
    ∀ (L : List (RPath × Bytes)) (fs : FS) (n : Nat) (p : RPath),
    (∀ f ∈ L, ¬ f.1 = p) →
    lookupPath (syncFiles ig L fs n).1.files p = lookupPath fs.files p
  | [], _, _, _, _ => rfl
  | (q, c) :: rest, fs, n, p, h => by
      rw [syncFiles]
      have hq : ¬ q = p := h (q, c) (List.mem_cons_self _ _)
      by_cases hpr : prunedIgnored ig q = true
      · rw [if_pos hpr]
        exact syncFiles_lookup_untouched ig rest fs n p
          (fun f hf => h f (List.mem_cons_of_mem _ hf))
      · rw [if_neg hpr]
        rw [syncFiles_lookup_untouched ig rest _ _ p
          (fun f hf => h f (List.mem_cons_of_mem _ hf))]
        exact lookupPath_fsWriteFile_ne fs p q c hq

theorem syncFiles_lookup_none (ig : Ignorer) :
    ∀ (L : List (RPath × Bytes)) (fs : FS) (n : Nat) (p : RPath),
    lookupPath fs.files p = none →
    (∀ f ∈ L, prunedIgnored ig f.1 = false → ¬ f.1 = p) →
    lookupPath (syncFiles ig L fs n).1.files p = none
  | [], _, _, _, h0, _ => h0
  | (q, c) :: rest, fs, n, p, h0, h => by
      rw [syncFiles]
      by_cases hpr : prunedIgnored ig q = true
      · rw [if_pos hpr]
        exact syncFiles_lookup_none ig rest fs n p h0
          (fun f hf => h f (List.mem_cons_of_mem _ hf))
      · rw [if_neg hpr]
        have hq : ¬ q = p :=
          h (q, c) (List.mem_cons_self _ _) (Bool.not_eq_true _ ▸ hpr)
        refine syncFiles_lookup_none ig rest _ _ p ?_
          (fun f hf => h f (List.mem_cons_of_mem _ hf))
        rw [lookupPath_fsWriteFile_ne fs p q c hq]
        exact h0

theorem syncFiles_lookup_mem (ig : Ignorer) :
    ∀ (L : List (RPath × Bytes)) (fs : FS) (n : Nat) (p : RPath) (c : Bytes),
    (p, c) ∈ L → prunedIgnored ig p = false → (L.map Prod.fst).Nodup →
    lookupPath (syncFiles ig L fs n).1.files p = some c
  | [], _, _, _, _, hmem, _, _ => absurd hmem (List.not_mem_nil _)
  | (q, d) :: rest, fs, n, p, c, hmem, hpr, hnd => by
      rw [syncFiles]
      have hnd' : (q :: rest.map Prod.fst).Nodup := by simpa using hnd
      obtain ⟨hqnot, hndrest⟩ := List.nodup_cons.mp hnd'
      rcases List.mem_cons.mp hmem with heq | hmem'
      · have h1 : p = q := congrArg Prod.fst heq
        have h2 : c = d := congrArg Prod.snd heq
        subst h1
        subst h2
        rw [if_neg (by simp [hpr])]
        rw [syncFiles_lookup_untouched ig rest _ _ p
          (fun f hf e => hqnot (e ▸ List.mem_map_of_mem Prod.fst hf))]
        exact lookupPath_fsWriteFile_self fs p c
      · have hqp : ¬ q = p := by
          intro e
          exact hqnot (e ▸ List.mem_map_of_mem Prod.fst hmem')
        by_cases hprq : prunedIgnored ig q = true
        · rw [if_pos hprq]
          exact syncFiles_lookup_mem ig rest fs n p c hmem' hpr hndrest
        · rw [if_neg hprq]
          exact syncFiles_lookup_mem ig rest _ _ p c hmem' hpr hndrest

theorem prunedIgnored_eq_false (ig : Ignorer)
    (hwf : ∀ r ∈ ig.gi.rules, ∀ g, r = Rule.glob g → ¬ g = [] ∧ ¬ g.getLast? = some '/')
    (p : RPath) (hsf : ∀ s ∈ p, '/' ∉ s)
    (hni : ig.ShouldIgnore (joinSlash p) = false) :
    prunedIgnored ig p = false := by
  cases h : prunedIgnored ig p with
  | false => rfl
  | true =>
      exfalso
      obtain ⟨q, hq, hqcond⟩ := List.any_eq_true.mp h
      obtain ⟨hqne', hqig⟩ := Bool.and_eq_true_iff.mp hqcond
      have hqne : q ≠ [] := by
        intro e
        rw [e] at hqne'
        simp at hqne'
      have hqpre : q <+: p := (List.mem_inits q p).mp hq
      by_cases hqp : q = p
      · rw [hqp] at hqig
        rw [hqig] at hni
        exact absurd hni (by simp)
      · have := shouldIgnore_mono ig hwf q p hqne hqpre hqp hsf hqig
        rw [this] at hni
        exact absurd hni (by simp)

theorem prunedIgnored_of_self (ig : Ignorer) (p : RPath) (hp : p ≠ [])
    (hig : ig.ShouldIgnore (joinSlash p) = true) :
    prunedIgnored ig p = true := by
  refine List.any_eq_true.mpr ⟨p, (List.mem_inits p p).mpr ⟨[], by simp⟩, ?_⟩
  rw [Bool.and_eq_true_iff]
  constructor
  · cases p with
    | nil => exact absurd rfl hp
    | cons a p' => simp
  · exact hig

/-- C1 (amended): starting from an empty destination, `initialSync`
produces a mirror: every source file whose relative path the pattern set
does not ignore ends up at the same relative path in the destination with
identical contents, and no file whose relative path is ignored ends up
there.  The hypotheses state the shape invariants of a real tree (paths
are nonempty lists of slash-free segments, listed once) and of a compiled
pattern set (guaranteed by `newIgnorer_wf`). -/
theorem initialSync_roundtrip (src : FS) (ig : Ignorer)
    (hwf : ∀ r ∈ ig.gi.rules, ∀ g, r = Rule.glob g → ¬ g = [] ∧ ¬ g.getLast? = some '/')
    (hseg : ∀ f ∈ src.files, f.1 ≠ [] ∧ ∀ s ∈ f.1, '/' ∉ s)
    (hnd : (src.files.map Prod.fst).Nodup) :
    (∀ p c, (p, c) ∈ src.files → ig.ShouldIgnore (joinSlash p) = false →
      lookupPath (InitialSync src ⟨[], []⟩ ig).1.files p = some c)
    ∧ (∀ p c, (p, c) ∈ src.files → ig.ShouldIgnore (joinSlash p) = true →
      lookupPath (InitialSync src ⟨[], []⟩ ig).1.files p = none) := by
  constructor
  · intro p c hmem hni
    obtain ⟨hpne, hpsf⟩ := hseg (p, c) hmem
    exact syncFiles_lookup_mem ig src.files _ 0 p c hmem
      (prunedIgnored_eq_false ig hwf p hpsf hni) hnd
  · intro p c hmem hig
    obtain ⟨hpne, hpsf⟩ := hseg (p, c) hmem
    refine syncFiles_lookup_none ig src.files _ 0 p rfl ?_
    intro f hf hfpr e
    have : prunedIgnored ig f.1 = true := by
      rw [e]
      exact prunedIgnored_of_self ig p hpne hig
    rw [this] at hfpr
    exact absurd hfpr (by simp)

/-- The pattern set compiled from the single extra pattern `*.bak`. -/
def igBak : Ignorer := NewIgnorer [] [] ["*.bak".data] false false

/-- Source tree holding the ignored file `x.bak`. -/
def srcBak : FS := ⟨[(["x.bak".data], [1])], []⟩

/-- Destination tree already holding a file at the ignored path `x.bak`. -/
def dstBak : FS := ⟨[(["x.bak".data], [2])], []⟩

/-- C1 counterexample: `initialSync` merges into an existing destination
and never deletes, so a pre-existing destination file at an ignored source
path survives the sync — the claim as stated requires it to not exist. -/
theorem initialSync_merge_keeps_preexisting_ignored :
    igBak.ShouldIgnore (joinSlash ["x.bak".data]) = true
      ∧ (["x.bak".data], ([1] : Bytes)) ∈ srcBak.files
      ∧ lookupPath (InitialSync srcBak dstBak igBak).1.files ["x.bak".data]
          = some [2] := by
  decide

/-- Source tree of the sync scenario: two kept files plus the two
always-ignored entries. -/
def srcAddon : FS :=
  ⟨[(["main.lua".data], [1]), (["libs".data, "helper.lua".data], [2]),
    (["blink.toml".data], [3]), ([".git".data, "HEAD".data], [4])],
   [["libs".data], [".git".data]]⟩

/-- Witness for C1 at the scenario tree with the default pattern set. -/
theorem initialSync_roundtrip_witness :
    ((∀ f ∈ srcAddon.files, f.1 ≠ [] ∧ ∀ s ∈ f.1, '/' ∉ s)
        ∧ (srcAddon.files.map Prod.fst).Nodup)
      ∧ ((∀ p c, (p, c) ∈ srcAddon.files →
            (NewIgnorer [] [] [] false false).ShouldIgnore (joinSlash p) = false →
            lookupPath (InitialSync srcAddon ⟨[], []⟩
              (NewIgnorer [] [] [] false false)).1.files p = some c)
          ∧ (∀ p c, (p, c) ∈ srcAddon.files →
              (NewIgnorer [] [] [] false false).ShouldIgnore (joinSlash p) = true →
              lookupPath (InitialSync srcAddon ⟨[], []⟩
                (NewIgnorer [] [] [] false false)).1.files p = none)) :=
  ⟨⟨by decide, by decide⟩,
    initialSync_roundtrip srcAddon (NewIgnorer [] [] [] false false)
      (newIgnorer_wf [] [] [] false false) (by decide) (by decide)⟩
